import Mathlib

/-!
Shallow embedding of the pico2-TCD1304-reader firmware
(`tcd1304_reader.c`, v0.3 2025-01-08) and proofs about it.

The firmware is a single-threaded command interpreter: a line reader
(`getstr`), a dispatcher (`interpret_command`) with commands
`v L a b r q p`, a synchronized ADC capture (`b`), decimal and base64
batch reports (`r`, `q`), statistics (mean / sample stddev) and an I2C
period-setting message (`p`).

Machine integers are modelled as `Nat`/`Int` with explicit masking;
the C `float` statistics are modelled with exact rational arithmetic
(the structure of the two accumulation loops is kept verbatim);
hardware inputs (GPIO reads, ADC fifo values, the 32-bit microsecond
timer, the I2C transfer result) are supplied by an explicit
environment record.  Output lines are the exact characters printed
(without the trailing newline), and I2C traffic is recorded as a list
of (address, bytes) writes.
-/

/-- `#define N_SAMPLES 3800` -/
def N_SAMPLES : Nat := 3800

/-- `#define VERSION_STR ...` (as the character list printed by `v`). -/
def VERSION_STR : List Char := "v0.3 2025-01-08 TCD1304DG linear-image-sensor reader".data

/-- `const char base64_alphabet[64] = {...}` -/
def base64_alphabet : List Char :=
  ['A','B','C','D','E','F','G','H','I','J','K','L','M','N','O','P',
   'Q','R','S','T','U','V','W','X','Y','Z','a','b','c','d','e','f',
   'g','h','i','j','k','l','m','n','o','p','q','r','s','t','u','v',
   'w','x','y','z','0','1','2','3','4','5','6','7','8','9','+','/']

/-- `base64_alphabet[k]` (the C array read; indices used are < 64). -/
def b64get (k : Nat) : Char := base64_alphabet.getD k 'A'

/-- Separator test for `strtok(.., ", ")`: the separator set is comma and space. -/
def isSepChar (c : Char) : Bool := c = ',' || c = ' '

/-- Worker for `tokenize`: accumulates the current token (reversed) while
scanning, closing a token at each separator. -/
def tokAux : List Char → List Char → List (List Char)
  | [], cur => if cur = [] then [] else [cur.reverse]
  | c :: rest, cur =>
    if isSepChar c then
      (if cur = [] then tokAux rest [] else cur.reverse :: tokAux rest [])
    else tokAux rest (c :: cur)

/-- The sequence of tokens produced by repeated `strtok(s, ", ")` calls:
maximal runs of non-separator characters, in order. -/
def tokenize (s : List Char) : List (List Char) := tokAux s []

/-- C `isspace` set, as used by `atoi` to skip leading whitespace. -/
def cIsSpace (c : Char) : Bool :=
  c = ' ' || c = '\t' || c = '\n' || c = '\u000b' || c = '\u000c' || c = '\r'

/-- Digit-accumulation loop of `atoi`: consume decimal digits, stop at the
first non-digit. -/
def atoiCore : List Char → Nat → Nat
  | [], acc => acc
  | c :: rest, acc =>
    if c.isDigit then atoiCore rest (acc * 10 + (c.toNat - 48)) else acc

/-- C `atoi`: skip leading whitespace, optional sign, then decimal digits
(empty / non-numeric input yields 0). -/
def atoi (s : List Char) : Int :=
  match s.dropWhile cIsSpace with
  | '-' :: rest => - (atoiCore rest 0 : Int)
  | '+' :: rest => (atoiCore rest 0 : Int)
  | s' => (atoiCore s' 0 : Int)

/-- The C cast `(uint16_t) e` applied to an `int` value: reduction
modulo 2^16 (nonnegative representative). -/
def toUint16 (a : Int) : Nat := (a.emod 65536).toNat

/-- The C expression `(uint8_t)(e & 1)` applied to an `int` value:
its least-significant (two's-complement) bit. -/
def intAnd1 (a : Int) : Nat := (a.emod 2).toNat

/-- The firmware's persistent (file-scope) state: `adc_samples[]`,
`override_led`, and the LED output pin level. -/
structure Machine where
  adc_samples : Nat → Nat
  override_led : Nat
  led : Bool

/-- Hardware inputs consumed during one command: the `adc_read()` value,
the successive `gpio_get(ICG_PIN)` readings, the successive ADC fifo
values pulled by `adc_capture`, the two `time_us_32()` readings
(32-bit counter values), and the return value of `i2c_write_blocking`. -/
structure Env where
  adc_raw : Nat
  icg_reads : List Bool
  capture : Nat → Nat
  time_start : Nat
  time_end : Nat
  i2c_result : Int

/-- Result of one `interpret_command` run: final state, the printed
lines (each without its trailing newline), and the I2C writes
performed as (address, bytes) pairs. -/
structure Outcome where
  state : Machine
  output : List (List Char)
  i2c_writes : List (Nat × List Nat)

/-- `if (!override_led) gpio_put(LED_PIN, 1);` at interpreter entry. -/
def ledStart (M : Machine) : Machine :=
  if M.override_led = 0 then { M with led := true } else M

/-- `if (!override_led) gpio_put(LED_PIN, 0);` at interpreter exit. -/
def ledEnd (M : Machine) : Machine :=
  if M.override_led = 0 then { M with led := false } else M

/-- `getstr` loop body, one recursive step per `getc(stdin)` result.
Returns `none` if the input stream ends before a newline (the C loop
would block forever); otherwise `some (count, writes)` where `writes`
lists every `buf[index] = char` store performed, in order, the final
one being the terminating NUL. -/
def getstrAux (nbuf : Nat) : List Char → Nat → List (Nat × Char) →
    Option (Nat × List (Nat × Char))
  | [], _, _ => none
  | c :: rest, i, ws =>
    if c = '\n' then some (i, ws ++ [(i, '\u0000')])
    else if c = '\u0008' then getstrAux nbuf rest (if 0 < i then i - 1 else i) ws
    else if c = '\r' then getstrAux nbuf rest i ws
    else if i < nbuf - 1 then getstrAux nbuf rest (i + 1) (ws ++ [(i, c)])
    else getstrAux nbuf rest i ws

/-- `int getstr(char* buf, int nbuf)` over an explicit character stream. -/
def getstr (input : List Char) (nbuf : Nat) : Option (Nat × List (Nat × Char)) :=
  getstrAux nbuf input 0 []

/-- `while (gpio_get(ICG_PIN)) { /* wait */ }` : consume readings while
they are high; the reading that exits the loop is low.  Returns the
unconsumed readings, or `none` if the readings run out (the C loop
never terminates). -/
def waitWhileTrue : List Bool → Option (List Bool)
  | [] => none
  | b :: rest => if b then waitWhileTrue rest else some rest

/-- `while (!gpio_get(ICG_PIN)) { /* wait */ }` : consume readings while
they are low; the reading that exits the loop is high. -/
def waitWhileFalse : List Bool → Option (List Bool)
  | [] => none
  | b :: rest => if b then some rest else waitWhileFalse rest

/-- The two-phase wait at the head of the `b` handler, exactly as coded:
first `while (gpio_get(ICG_PIN));` then `while (!gpio_get(ICG_PIN));`. -/
def bWait (reads : List Bool) : Option (List Bool) :=
  (waitWhileTrue reads).bind waitWhileFalse

/-- Modelled from the spec: the wait order the specification describes
("busy-poll the edge-sense input until it reads high, then busy-poll
until it reads low"), for comparison with `bWait`. -/
def claimWait_highThenLow (reads : List Bool) : Option (List Bool) :=
  (waitWhileFalse reads).bind waitWhileTrue

/-- `adc_capture(buf, count)`: overwrite `buf[0..count-1]` with the
successive fifo values; indices at or beyond `count` keep their old
contents. -/
def adc_capture (buf : Nat → Nat) (fifo : Nat → Nat) (count : Nat) : Nat → Nat :=
  fun i => if i < count then fifo i else buf i

/-- First statistics pass of the `b` handler:
`for (j...) mean += adc_samples[j]; mean /= n;` (exact arithmetic). -/
def mean_of (s : Nat → Nat) : ℚ :=
  ((List.range N_SAMPLES).foldl (fun acc j => acc + (s j : ℚ)) 0) / (N_SAMPLES : ℚ)

/-- Second statistics pass: `for (j...) { diff = samples[j] - mean; variance += diff*diff; }`
with `m` the previously computed mean. -/
def variance_sum (s : Nat → Nat) (m : ℚ) : ℚ :=
  (List.range N_SAMPLES).foldl
    (fun acc j => acc + ((s j : ℚ) - m) * ((s j : ℚ) - m)) 0

/-- The argument of `sqrt` in `stddev = sqrt(variance/(n-1.0f))`, i.e. the
square of the reported standard deviation. -/
def stddev_sq (s : Nat → Nat) : ℚ :=
  variance_sum s (mean_of s) / ((N_SAMPLES : ℚ) - 1)

/-- The numeric text of the `b` response (`"%g %g %u"` fields).  The `%g`
float renderings are modelled by rational rendering (the stddev slot
shows the argument of `sqrt`); no claim depends on these numeric
texts, only on the `"b "` prefix and the statistics definitions above. -/
def bStats (s : Nat → Nat) (t : Nat) : List Char :=
  (toString (mean_of s)).data ++ ' ' :: (toString (stddev_sq s)).data ++ ' ' :: (Nat.repr t).data

/-- The `b` response line `printf("b %g %g %u\n", mean, stddev, time_taken)`. -/
def bLine (s : Nat → Nat) (t : Nat) : List Char :=
  'b' :: ' ' :: bStats s t

/-- The `r` report: `printf("%u\n", adc_samples[j])` for each of the
`N_SAMPLES` indices, one line per sample. -/
def rLines (s : Nat → Nat) : List (List Char) :=
  (List.range N_SAMPLES).map (fun j => (Nat.repr (s j)).data)

/-- One sample of the `q` report:
`hi = base64_alphabet[(val & 0x0FFF) >> 6]; lo = base64_alphabet[val & 0x003F];`
printed adjacently. -/
def qPair (val : Nat) : List Char :=
  [b64get ((val &&& 0x0FFF) >>> 6), b64get (val &&& 0x003F)]

/-- One line of the `q` report: the inner `for (k=0; k<20; ++k)` loop
over `adc_samples[j*20 + k]`. -/
def qLine (s : Nat → Nat) (j : Nat) : List Char :=
  (List.range 20).flatMap (fun k => qPair (s (j * 20 + k)))

/-- The full `q` report: the outer `for (j=0; j<N_SAMPLES/20; ++j)` loop,
one line per iteration. -/
def qReport (s : Nat → Nat) : List (List Char) :=
  (List.range (N_SAMPLES / 20)).map (qLine s)

/-- Decoder for the packed report (host side): take the characters two at
a time, map each through the alphabet index, and reassemble
`64 * hi + lo`. -/
def decodePairs : List Char → List Nat
  | c1 :: c2 :: rest =>
    (64 * base64_alphabet.indexOf c1 + base64_alphabet.indexOf c2) :: decodePairs rest
  | _ => []

/-- `void interpret_command(char* cmdStr)` over an explicit state and
environment.  `cmd` is the buffer contents up to the NUL; the result is
`none` exactly when the command blocks forever (the `b` wait never
completes). -/
def interpret_command (M : Machine) (env : Env) (cmd : List Char) : Option Outcome :=
  let M0 := ledStart M
  let c := cmd.headD '\u0000'
  let toks := tokenize (cmd.drop 1)
  if c = 'v' then
    some ⟨ledEnd M0, [('v' :: ' ' :: VERSION_STR)], []⟩
  else if c = 'L' then
    match toks with
    | [] => some ⟨ledEnd M0, ["L error: no value".data], []⟩
    | t :: _ =>
      let i := intAnd1 (atoi t)
      some ⟨ledEnd { M0 with led := i == 1, override_led := i },
            [("L " ++ Nat.repr i).data], []⟩
  else if c = 'a' then
    some ⟨ledEnd M0, [("a " ++ Nat.repr env.adc_raw).data], []⟩
  else if c = 'b' then
    match bWait env.icg_reads with
    | none => none
    | some _ =>
      let M1 := { M0 with adc_samples := adc_capture M0.adc_samples env.capture N_SAMPLES }
      let time_taken := (env.time_end + 2 ^ 32 - env.time_start) % 2 ^ 32
      some ⟨ledEnd M1, [bLine M1.adc_samples time_taken], []⟩
  else if c = 'r' then
    some ⟨ledEnd M0, rLines M0.adc_samples, []⟩
  else if c = 'q' then
    some ⟨ledEnd M0, qReport M0.adc_samples, []⟩
  else if c = 'p' then
    match toks with
    | [] => some ⟨ledEnd M0, ["p error: no value for us_SH (nor us_ICG)".data], []⟩
    | [_] => some ⟨ledEnd M0, ["p error: no value for us_ICG".data], []⟩
    | t1 :: t2 :: _ =>
      let us_SH := toUint16 (atoi t1)
      let us_ICG := toUint16 (atoi t2)
      let msg := [(us_SH &&& 0xff00) >>> 8, us_SH &&& 0x00ff,
                  (us_ICG &&& 0xff00) >>> 8, us_ICG &&& 0x00ff]
      let resp := if env.i2c_result = 4 then
          ("p " ++ Nat.repr us_SH ++ " " ++ Nat.repr us_ICG).data
        else "p error: unsuccessful I2C communication".data
      some ⟨ledEnd M0, [resp], [(0x51, msg)]⟩
  else
    some ⟨ledEnd M0, [(c :: " error: Unknown command".data)], []⟩

/-- A concrete machine state used by counterexamples and witnesses:
a zeroed sample buffer, no LED override, LED off. -/
def M0ex : Machine := ⟨fun _ => 0, 0, false⟩

/-- A concrete environment with failing I2C result (0 bytes). -/
def env0 : Env := ⟨0, [], fun _ => 0, 0, 0, 0⟩

/-- A concrete environment whose I2C write acknowledges all 4 bytes. -/
def env4 : Env := ⟨0, [], fun _ => 0, 0, 0, 4⟩

/-- First output line of an interpreter run (used to state concrete
counterexamples without existential packaging). -/
def firstLine (o : Option Outcome) : List Char :=
  (o.map (fun r => r.output.headD [])).getD []

/-! ## Helper lemmas about the activity-indicator wrapper -/

theorem ledStart_adc (M : Machine) : (ledStart M).adc_samples = M.adc_samples := by
  unfold ledStart; split <;> rfl

theorem ledStart_override (M : Machine) : (ledStart M).override_led = M.override_led := by
  unfold ledStart; split <;> rfl

theorem ledEnd_adc (M : Machine) : (ledEnd M).adc_samples = M.adc_samples := by
  unfold ledEnd; split <;> rfl

theorem ledEnd_override (M : Machine) : (ledEnd M).override_led = M.override_led := by
  unfold ledEnd; split <;> rfl

theorem ledEnd_ledStart_led (M : Machine) (hinv : M.override_led = 0 → M.led = false) :
    (ledEnd (ledStart M)).led = M.led := by
  unfold ledStart ledEnd
  by_cases ho : M.override_led = 0 <;> simp [ho, hinv]

/-! ## The `r` and `q` handlers evaluated -/

theorem interpret_r_eq (M : Machine) (e : Env) (tl : List Char) :
    interpret_command M e ('r' :: tl) =
      some ⟨ledEnd (ledStart M), rLines M.adc_samples, []⟩ := by
  simp [interpret_command, ledStart_adc]

theorem interpret_q_eq (M : Machine) (e : Env) (tl : List Char) :
    interpret_command M e ('q' :: tl) =
      some ⟨ledEnd (ledStart M), qReport M.adc_samples, []⟩ := by
  simp [interpret_command, ledStart_adc]

/-- C8: the `r` and `q` commands only read the sample buffer: repeating
either without an intervening `b` leaves every sample unchanged and
produces identical output each time. -/
theorem c8_report_idempotent (M : Machine) (e1 e2 : Env) (tail : List Char) :
    (∃ o1 o2, interpret_command M e1 ('r' :: tail) = some o1 ∧
      interpret_command o1.state e2 ('r' :: tail) = some o2 ∧
      o1.output = o2.output ∧ o1.state.adc_samples = M.adc_samples ∧
      o2.state.adc_samples = M.adc_samples) ∧
    (∃ o1 o2, interpret_command M e1 ('q' :: tail) = some o1 ∧
      interpret_command o1.state e2 ('q' :: tail) = some o2 ∧
      o1.output = o2.output ∧ o1.state.adc_samples = M.adc_samples ∧
      o2.state.adc_samples = M.adc_samples) := by
  constructor
  · refine ⟨_, _, interpret_r_eq M e1 tail, interpret_r_eq _ e2 tail, ?_, ?_, ?_⟩ <;>
      simp [ledEnd_adc, ledStart_adc]
  · refine ⟨_, _, interpret_q_eq M e1 tail, interpret_q_eq _ e2 tail, ?_, ?_, ?_⟩ <;>
      simp [ledEnd_adc, ledStart_adc]

/-- C6: a `p` command with no token answers exactly
`p error: no value for us_SH (nor us_ICG)`; with exactly one token it
answers exactly `p error: no value for us_ICG`; in both cases no I2C
write is recorded and the interpreter returns normally (`some`). -/
theorem c6_p_missing_tokens (M : Machine) (e : Env) (tail : List Char) :
    (tokenize tail = [] →
      interpret_command M e ('p' :: tail) =
        some ⟨ledEnd (ledStart M), ["p error: no value for us_SH (nor us_ICG)".data], []⟩) ∧
    (∀ t, tokenize tail = [t] →
      interpret_command M e ('p' :: tail) =
        some ⟨ledEnd (ledStart M), ["p error: no value for us_ICG".data], []⟩) := by
  constructor
  · intro h; simp [interpret_command, h]
  · intro t h; simp [interpret_command, h]

theorem c6_witness :
    interpret_command M0ex env0 ['p'] =
      some ⟨ledEnd (ledStart M0ex), ["p error: no value for us_SH (nor us_ICG)".data], []⟩ :=
  (c6_p_missing_tokens M0ex env0 []).1 rfl

set_option maxRecDepth 100000 in
/-- C5 counterexample: `r` is a valid command, but the first line of its
report for the all-zero buffer is `"0"`, which does not begin with the
command character `r` — the `r`/`q` data lines carry no command-code
prefix. -/
theorem c5_counterexample :
    firstLine (interpret_command M0ex env0 ['r']) = ['0'] ∧
      (['0'] : List Char).head? ≠ some 'r' := by
  exact ⟨rfl, by decide⟩

/-! ## Decimal rendering facts (used to separate success and error lines) -/

theorem digitChar_isDigit (m : Nat) (h : m < 10) : (Nat.digitChar m).isDigit = true := by
  interval_cases m <;> decide

theorem toDigitsCore_digits :
    ∀ (fuel n : Nat) (acc : List Char), (∀ c ∈ acc, c.isDigit = true) →
      ∀ c ∈ Nat.toDigitsCore 10 fuel n acc, c.isDigit = true := by
  intro fuel
  induction fuel with
  | zero => intro n acc hacc; simpa [Nat.toDigitsCore] using hacc
  | succ f ih =>
    intro n acc hacc
    rw [Nat.toDigitsCore]
    split
    · intro c hc
      rcases List.mem_cons.mp hc with rfl | h
      · exact digitChar_isDigit _ (Nat.mod_lt _ (by norm_num))
      · exact hacc c h
    · apply ih
      intro c hc
      rcases List.mem_cons.mp hc with rfl | h
      · exact digitChar_isDigit _ (Nat.mod_lt _ (by norm_num))
      · exact hacc c h

theorem toDigitsCore_ne_nil :
    ∀ (fuel n : Nat) (acc : List Char), acc ≠ [] → Nat.toDigitsCore 10 fuel n acc ≠ [] := by
  intro fuel
  induction fuel with
  | zero => intro n acc h; simpa [Nat.toDigitsCore] using h
  | succ f ih =>
    intro n acc h
    rw [Nat.toDigitsCore]
    split
    · simp
    · exact ih _ _ (by simp)

/-- The decimal rendering of a natural number starts with a digit. -/
theorem repr_head_isDigit (n : Nat) :
    ∃ c cs, (Nat.repr n).data = c :: cs ∧ c.isDigit = true := by
  have hdata : (Nat.repr n).data = Nat.toDigits 10 n := rfl
  have hne : Nat.toDigits 10 n ≠ [] := by
    unfold Nat.toDigits
    rw [Nat.toDigitsCore]
    split
    · simp
    · exact toDigitsCore_ne_nil _ _ _ (by simp)
  have hdig := toDigitsCore_digits (n + 1) n [] (by simp)
  rcases hd : Nat.toDigits 10 n with _ | ⟨c, cs⟩
  · exact absurd hd hne
  · refine ⟨c, cs, by rw [hdata, hd], ?_⟩
    apply hdig
    rw [show Nat.toDigitsCore 10 (n + 1) n [] = Nat.toDigits 10 n from rfl, hd]
    simp

/-- The `p` success line can never coincide with the `p` I2C-error line. -/
theorem success_ne_error (a b : Nat) :
    ("p " ++ Nat.repr a ++ " " ++ Nat.repr b).data ≠
      "p error: unsuccessful I2C communication".data := by
  obtain ⟨c, cs, hdata, hdig⟩ := repr_head_isDigit a
  intro h
  have hL : ("p " ++ Nat.repr a ++ " " ++ Nat.repr b).data
      = 'p' :: ' ' :: ((Nat.repr a).data ++ (' ' :: (Nat.repr b).data)) := by
    simp [String.data_append]
  have hR : "p error: unsuccessful I2C communication".data
      = 'p' :: ' ' :: 'e' :: "rror: unsuccessful I2C communication".data := rfl
  rw [hL, hR, hdata] at h
  have hce : c = 'e' := by simp at h; exact h.1
  rw [hce] at hdig
  exact absurd hdig (by decide)

/-! ## Byte extraction facts for the period message -/

theorem shr8_and (v : Nat) : (v &&& 0xff00) >>> 8 = (v >>> 8) &&& 0xff := by
  apply Nat.eq_of_testBit_eq
  intro j
  simp only [Nat.testBit_shiftRight, Nat.testBit_and]
  by_cases hj : j < 8
  · congr 1
    interval_cases j <;> decide
  · have h1 : Nat.testBit 0xff00 (8 + j) = false :=
      Nat.testBit_lt_two_pow
        (lt_of_lt_of_le (by norm_num : (0xff00 : Nat) < 2 ^ 16)
          (Nat.pow_le_pow_right (by norm_num) (by omega)))
    have h2 : Nat.testBit 0xff j = false :=
      Nat.testBit_lt_two_pow
        (lt_of_lt_of_le (by norm_num : (0xff : Nat) < 2 ^ 8)
          (Nat.pow_le_pow_right (by norm_num) (by omega)))
    simp [h1, h2]

/-- `(v & 0xff00) >> 8` is the high byte of a 16-bit value. -/
theorem hi_byte (v : Nat) (h : v < 65536) : (v &&& 0xff00) >>> 8 = v / 256 := by
  rw [shr8_and]
  have h2 : v >>> 8 = v / 256 := by
    rw [Nat.shiftRight_eq_div_pow]
  have h3 : (0xff : Nat) = 2 ^ 8 - 1 := by norm_num
  rw [h2, h3, Nat.and_pow_two_sub_one_eq_mod]
  have : v / 256 < 256 := by omega
  omega

/-- `v & 0x00ff` is the low byte. -/
theorem lo_byte (v : Nat) : v &&& 0x00ff = v % 256 := by
  have h3 : (0x00ff : Nat) = 2 ^ 8 - 1 := by norm_num
  rw [h3, Nat.and_pow_two_sub_one_eq_mod]

theorem toUint16_lt (a : Int) : toUint16 a < 65536 := by
  unfold toUint16
  have h1 : 0 ≤ a.emod 65536 := Int.emod_nonneg a (by norm_num)
  have h2 : a.emod 65536 < 65536 := Int.emod_lt_of_pos a (by norm_num)
  omega

/-- The `p` handler with two tokens, evaluated. -/
theorem interpret_p2_eq (M : Machine) (e : Env) (tl t1 t2 : List Char)
    (ts : List (List Char)) (h : tokenize tl = t1 :: t2 :: ts) :
    interpret_command M e ('p' :: tl) =
      some ⟨ledEnd (ledStart M),
        [if e.i2c_result = 4 then
            ("p " ++ Nat.repr (toUint16 (atoi t1)) ++ " " ++
              Nat.repr (toUint16 (atoi t2))).data
          else "p error: unsuccessful I2C communication".data],
        [(0x51, [(toUint16 (atoi t1) &&& 0xff00) >>> 8, toUint16 (atoi t1) &&& 0x00ff,
                 (toUint16 (atoi t2) &&& 0xff00) >>> 8, toUint16 (atoi t2) &&& 0x00ff])]⟩ := by
  simp [interpret_command, h]

/-- C3: a `p` command with two parsed tokens builds exactly the 4-byte
message [SH-high, SH-low, ICG-high, ICG-low] (big-endian per value),
sends it in a single write to bus address 0x51, and answers
`p <us_SH> <us_ICG>` if and only if the transfer result is exactly 4;
any other transfer count yields the I2C-error response. -/
theorem c3_p_two_tokens (M : Machine) (e : Env) (tail t1 t2 : List Char)
    (ts : List (List Char)) (out : Outcome)
    (htok : tokenize tail = t1 :: t2 :: ts)
    (hrun : interpret_command M e ('p' :: tail) = some out) :
    out.i2c_writes = [(0x51,
      [toUint16 (atoi t1) / 256, toUint16 (atoi t1) % 256,
       toUint16 (atoi t2) / 256, toUint16 (atoi t2) % 256])] ∧
    (out.output = [("p " ++ Nat.repr (toUint16 (atoi t1)) ++ " " ++
        Nat.repr (toUint16 (atoi t2))).data] ↔ e.i2c_result = 4) ∧
    (e.i2c_result ≠ 4 →
      out.output = ["p error: unsuccessful I2C communication".data]) := by
  rw [interpret_p2_eq M e tail t1 t2 ts htok] at hrun
  obtain rfl : out = _ := (Option.some.injEq _ _ ▸ hrun).symm
  refine ⟨?_, ?_, ?_⟩
  · simp [hi_byte _ (toUint16_lt (atoi t1)), hi_byte _ (toUint16_lt (atoi t2)),
      lo_byte]
  · constructor
    · intro hout
      by_contra h4
      rw [if_neg h4] at hout
      simp only [List.cons.injEq, and_true] at hout
      exact success_ne_error _ _ hout.symm
    · intro h4
      rw [if_pos h4]
  · intro h4
    rw [if_neg h4]

theorem c3_witness :
    [((0x51 : Nat), [1, 44, 32, 208])] =
      [((0x51 : Nat),
        [toUint16 (atoi "300".data) / 256, toUint16 (atoi "300".data) % 256,
         toUint16 (atoi "8400".data) / 256, toUint16 (atoi "8400".data) % 256])] := by
  have h := c3_p_two_tokens M0ex env4 (" 300 8400".data) "300".data "8400".data []
    ⟨ledEnd (ledStart M0ex), ["p 300 8400".data], [(0x51, [1, 44, 32, 208])]⟩ rfl rfl
  exact h.1.symm ▸ rfl

/-- C10: the two `p` tokens are truncated to 16-bit unsigned containers:
the packed and echoed values are (parsed value) mod 2^16 (nonnegative
representative), e.g. a token of 70000 is used as 4464. -/
theorem c10_p_truncates_mod_2_16 (M : Machine) (e : Env) (tail t1 t2 : List Char)
    (ts : List (List Char)) (out : Outcome)
    (htok : tokenize tail = t1 :: t2 :: ts)
    (hrun : interpret_command M e ('p' :: tail) = some out) :
    toUint16 (atoi t1) = ((atoi t1) % 65536).toNat ∧
    toUint16 (atoi t2) = ((atoi t2) % 65536).toNat ∧
    out.i2c_writes = [(0x51,
      [((atoi t1) % 65536).toNat / 256, ((atoi t1) % 65536).toNat % 256,
       ((atoi t2) % 65536).toNat / 256, ((atoi t2) % 65536).toNat % 256])] ∧
    (e.i2c_result = 4 →
      out.output = [("p " ++ Nat.repr (((atoi t1) % 65536).toNat) ++ " " ++
        Nat.repr (((atoi t2) % 65536).toNat)).data]) := by
  rw [interpret_p2_eq M e tail t1 t2 ts htok] at hrun
  obtain rfl : out = _ := (Option.some.injEq _ _ ▸ hrun).symm
  refine ⟨rfl, rfl, ?_, ?_⟩
  · simp [hi_byte _ (toUint16_lt (atoi t1)), hi_byte _ (toUint16_lt (atoi t2)),
      lo_byte]
    exact ⟨rfl, rfl, rfl, rfl⟩
  · intro h4
    rw [if_pos h4]
    rfl

theorem c10_witness :
    (((atoi "70000".data) % 65536).toNat = 4464) ∧
    [((0x51 : Nat), [17, 112, 32, 208])] =
      [((0x51 : Nat),
        [((atoi "70000".data) % 65536).toNat / 256, ((atoi "70000".data) % 65536).toNat % 256,
         ((atoi "8400".data) % 65536).toNat / 256, ((atoi "8400".data) % 65536).toNat % 256])] := by
  have h := c10_p_truncates_mod_2_16 M0ex env4 (" 70000 8400".data) "70000".data "8400".data []
    ⟨ledEnd (ledStart M0ex), ["p 4464 8400".data], [(0x51, [17, 112, 32, 208])]⟩ rfl rfl
  exact ⟨by decide, h.2.2.1.symm ▸ rfl⟩

/-! ## Per-command evaluations of the dispatcher -/

theorem interpret_v_eq (M : Machine) (e : Env) (tl : List Char) :
    interpret_command M e ('v' :: tl) =
      some ⟨ledEnd (ledStart M), [('v' :: ' ' :: VERSION_STR)], []⟩ := by
  simp [interpret_command]

theorem interpret_L_none_eq (M : Machine) (e : Env) (tl : List Char)
    (h : tokenize tl = []) :
    interpret_command M e ('L' :: tl) =
      some ⟨ledEnd (ledStart M), ["L error: no value".data], []⟩ := by
  simp [interpret_command, h]

theorem interpret_L_tok_eq (M : Machine) (e : Env) (tl t : List Char)
    (ts : List (List Char)) (h : tokenize tl = t :: ts) :
    interpret_command M e ('L' :: tl) =
      some ⟨ledEnd ⟨(ledStart M).adc_samples, intAnd1 (atoi t), intAnd1 (atoi t) == 1⟩,
            [("L " ++ Nat.repr (intAnd1 (atoi t))).data], []⟩ := by
  simp [interpret_command, h]

theorem interpret_a_eq (M : Machine) (e : Env) (tl : List Char) :
    interpret_command M e ('a' :: tl) =
      some ⟨ledEnd (ledStart M), [("a " ++ Nat.repr e.adc_raw).data], []⟩ := by
  simp [interpret_command]

theorem interpret_b_none_eq (M : Machine) (e : Env) (tl : List Char)
    (h : bWait e.icg_reads = none) :
    interpret_command M e ('b' :: tl) = none := by
  simp [interpret_command, h]

theorem interpret_b_some_eq (M : Machine) (e : Env) (tl : List Char)
    (more : List Bool) (h : bWait e.icg_reads = some more) :
    interpret_command M e ('b' :: tl) =
      some ⟨ledEnd ⟨adc_capture (ledStart M).adc_samples e.capture N_SAMPLES,
              (ledStart M).override_led, (ledStart M).led⟩,
            [bLine (adc_capture (ledStart M).adc_samples e.capture N_SAMPLES)
              ((e.time_end + 2 ^ 32 - e.time_start) % 2 ^ 32)], []⟩ := by
  simp [interpret_command, h]

theorem interpret_p0_eq (M : Machine) (e : Env) (tl : List Char)
    (h : tokenize tl = []) :
    interpret_command M e ('p' :: tl) =
      some ⟨ledEnd (ledStart M),
        ["p error: no value for us_SH (nor us_ICG)".data], []⟩ := by
  simp [interpret_command, h]

theorem interpret_p1_eq (M : Machine) (e : Env) (tl t : List Char)
    (h : tokenize tl = [t]) :
    interpret_command M e ('p' :: tl) =
      some ⟨ledEnd (ledStart M), ["p error: no value for us_ICG".data], []⟩ := by
  simp [interpret_command, h]

/-- C5 (amended): for the commands with one-line responses — `v`, `L`,
`a`, `b`, `p` — every response line begins with the command line's
first character.  (The `r` and `q` report lines are raw data and carry
no such prefix; see the counterexample.) -/
theorem c5_single_line_prefix (M : Machine) (e : Env) (cmd : List Char) (out : Outcome)
    (hc : cmd.headD '\u0000' ∈ (['v', 'L', 'a', 'b', 'p'] : List Char))
    (hrun : interpret_command M e cmd = some out) :
    ∀ l ∈ out.output, l.head? = some (cmd.headD '\u0000') := by
  rcases cmd with _ | ⟨c0, rest⟩
  · exact absurd hc (by decide)
  · intro l hl
    simp only [List.headD_cons] at hc ⊢
    simp only [List.mem_cons, List.mem_singleton, List.not_mem_nil, or_false] at hc
    rcases hc with h | h | h | h | h
    · subst h
      rw [interpret_v_eq] at hrun
      obtain rfl : _ = out := Option.some.injEq _ _ ▸ hrun
      simp at hl
      subst hl
      rfl
    · subst h
      rcases htk : tokenize rest with _ | ⟨t, ts⟩
      · rw [interpret_L_none_eq M e rest htk] at hrun
        obtain rfl : _ = out := Option.some.injEq _ _ ▸ hrun
        simp at hl
        subst hl
        rfl
      · rw [interpret_L_tok_eq M e rest t ts htk] at hrun
        obtain rfl : _ = out := Option.some.injEq _ _ ▸ hrun
        simp at hl
        subst hl
        rfl
    · subst h
      rw [interpret_a_eq] at hrun
      obtain rfl : _ = out := Option.some.injEq _ _ ▸ hrun
      simp at hl
      subst hl
      rfl
    · subst h
      rcases hw : bWait e.icg_reads with _ | more
      · rw [interpret_b_none_eq M e rest hw] at hrun
        exact absurd hrun (by simp)
      · rw [interpret_b_some_eq M e rest more hw] at hrun
        obtain rfl : _ = out := Option.some.injEq _ _ ▸ hrun
        simp at hl
        subst hl
        rfl
    · subst h
      rcases htk : tokenize rest with _ | ⟨t1, ts1⟩
      · rw [interpret_p0_eq M e rest htk] at hrun
        obtain rfl : _ = out := Option.some.injEq _ _ ▸ hrun
        simp at hl
        subst hl
        rfl
      · rcases ts1 with _ | ⟨t2, ts2⟩
        · rw [interpret_p1_eq M e rest t1 htk] at hrun
          obtain rfl : _ = out := Option.some.injEq _ _ ▸ hrun
          simp at hl
          subst hl
          rfl
        · rw [interpret_p2_eq M e rest t1 t2 ts2 htk] at hrun
          obtain rfl : _ = out := Option.some.injEq _ _ ▸ hrun
          simp at hl
          subst hl
          by_cases h4 : e.i2c_result = 4
          · rw [if_pos h4]
            rfl
          · rw [if_neg h4]
            rfl

theorem c5_witness : ('v' :: ' ' :: VERSION_STR).head? = some 'v' :=
  c5_single_line_prefix M0ex env0 ['v']
    ⟨ledEnd (ledStart M0ex), [('v' :: ' ' :: VERSION_STR)], []⟩
    (by decide) (interpret_v_eq M0ex env0 []) ('v' :: ' ' :: VERSION_STR) (by simp)

theorem intAnd1_cases (a : Int) : intAnd1 a = 0 ∨ intAnd1 a = 1 := by
  unfold intAnd1
  have h1 : 0 ≤ a.emod 2 := Int.emod_nonneg a (by norm_num)
  have h2 : a.emod 2 < 2 := Int.emod_lt_of_pos a (by norm_num)
  omega

/-- C7: `L` with no token answers exactly `L error: no value` and leaves
the LED level and the override flag unchanged (for any state satisfying
the interpreter-entry invariant that the LED is off whenever the
override is clear); with a token parsing to `v` it sets both the LED
output and the override flag to `v mod 2` and answers `L <v mod 2>`. -/
theorem c7_L_command (M : Machine) (e : Env) (tail : List Char)
    (hinv : M.override_led = 0 → M.led = false) :
    (tokenize tail = [] →
      ∃ out, interpret_command M e ('L' :: tail) = some out ∧
        out.output = ["L error: no value".data] ∧
        out.state.led = M.led ∧ out.state.override_led = M.override_led) ∧
    (∀ t ts, tokenize tail = t :: ts →
      ∃ out, interpret_command M e ('L' :: tail) = some out ∧
        out.state.override_led = ((atoi t) % 2).toNat ∧
        out.state.led = (((atoi t) % 2).toNat == 1) ∧
        out.output = [("L " ++ Nat.repr (((atoi t) % 2).toNat)).data]) := by
  constructor
  · intro h
    refine ⟨_, interpret_L_none_eq M e tail h, rfl, ?_, ?_⟩
    · exact ledEnd_ledStart_led M hinv
    · rw [ledEnd_override, ledStart_override]
  · intro t ts h
    refine ⟨_, interpret_L_tok_eq M e tail t ts h, ?_, ?_, rfl⟩
    · rw [ledEnd_override]
      rfl
    · rcases intAnd1_cases (atoi t) with h0 | h1
      · rw [show ((atoi t) % 2).toNat = intAnd1 (atoi t) from rfl, h0]
        simp [ledEnd, h0]
      · rw [show ((atoi t) % 2).toNat = intAnd1 (atoi t) from rfl, h1]
        simp [ledEnd, h1]

theorem c7_witness :
    (∃ out, interpret_command M0ex env0 ("L 5".data) = some out ∧
      out.state.override_led = ((atoi "5".data) % 2).toNat ∧
      out.state.led = (((atoi "5".data) % 2).toNat == 1) ∧
      out.output = [("L " ++ Nat.repr (((atoi "5".data) % 2).toNat)).data]) ∧
    ((atoi "5".data) % 2).toNat = 1 :=
  ⟨(c7_L_command M0ex env0 (" 5".data) (fun _ => rfl)).2 "5".data [] rfl, by decide⟩

/-! ## C2: the ICG wait -/

/-- C2 counterexample: on the reading sequence [low, high] the coded wait
completes (first loop exits on the low reading, second on the high
reading), while the claimed high-then-low polling order would block;
the two disagree, so the engine does not poll high-then-low. -/
theorem c2_counterexample :
    bWait [false, true] = some [] ∧ claimWait_highThenLow [false, true] = none ∧
    bWait [false, true] ≠ claimWait_highThenLow [false, true] := by decide

theorem waitWhileTrue_spec :
    ∀ (reads rest : List Bool), waitWhileTrue reads = some rest →
      ∃ m, m < reads.length ∧ reads[m]? = some false ∧
        (∀ x, x < m → reads[x]? = some true) ∧ rest = reads.drop (m + 1) := by
  intro reads
  induction reads with
  | nil => intro rest h; simp [waitWhileTrue] at h
  | cons b tl ih =>
    intro rest h
    by_cases hb : b
    · rw [waitWhileTrue, if_pos hb] at h
      obtain ⟨m, hlen, hm, hx, hrest⟩ := ih rest h
      refine ⟨m + 1, by simpa using hlen, by simpa using hm, ?_, by simpa using hrest⟩
      intro x hx'
      match x with
      | 0 => simp [hb]
      | y + 1 => simpa using hx y (by omega)
    · rw [waitWhileTrue, if_neg hb] at h
      obtain rfl : tl = rest := Option.some.injEq _ _ ▸ h
      refine ⟨0, by simp, ?_, by omega, by simp⟩
      simp at hb
      simp [hb]

theorem waitWhileFalse_spec :
    ∀ (reads rest : List Bool), waitWhileFalse reads = some rest →
      ∃ k, k < reads.length ∧ reads[k]? = some true ∧
        (∀ x, x < k → reads[x]? = some false) ∧ rest = reads.drop (k + 1) := by
  intro reads
  induction reads with
  | nil => intro rest h; simp [waitWhileFalse] at h
  | cons b tl ih =>
    intro rest h
    by_cases hb : b
    · rw [waitWhileFalse, if_pos hb] at h
      obtain rfl : tl = rest := Option.some.injEq _ _ ▸ h
      exact ⟨0, by simp, by simp [hb], by omega, by simp⟩
    · rw [waitWhileFalse, if_neg hb] at h
      obtain ⟨k, hlen, hk, hx, hrest⟩ := ih rest h
      refine ⟨k + 1, by simpa using hlen, by simpa using hk, ?_, by simpa using hrest⟩
      intro x hx'
      match x with
      | 0 => simp at hb; simp [hb]
      | y + 1 => simpa using hx y (by omega)

/-- C2 (amended): the `b` engine busy-polls until the edge input reads
LOW, then busy-polls until it reads HIGH (the reverse of the claimed
order), and only a completed wait lets the capture proceed: the
consumed readings are an initial block of highs, a first low, a block
of lows, and a final high at which the wait returns. -/
theorem c2_wait_low_then_high :
    (∀ (M : Machine) (e : Env) (tail : List Char) (out : Outcome),
      interpret_command M e ('b' :: tail) = some out → (bWait e.icg_reads).isSome) ∧
    (∀ (reads rest : List Bool), bWait reads = some rest →
      ∃ m k, m < k ∧ k < reads.length ∧
        (∀ x, x < m → reads[x]? = some true) ∧
        reads[m]? = some false ∧
        (∀ x, m < x → x < k → reads[x]? = some false) ∧
        reads[k]? = some true ∧
        rest = reads.drop (k + 1)) := by
  constructor
  · intro M e tail out hrun
    rcases hw : bWait e.icg_reads with _ | more
    · rw [interpret_b_none_eq M e tail hw] at hrun
      exact absurd hrun (by simp)
    · simp [hw]
  · intro reads rest h
    rcases hw : waitWhileTrue reads with _ | mid
    · rw [bWait, hw] at h
      simp at h
    · rw [bWait, hw] at h
      rw [Option.some_bind] at h
      obtain ⟨m, hmlen, hm, hxm, rfl⟩ := waitWhileTrue_spec reads mid hw
      obtain ⟨k', hklen, hk, hxk, hrest⟩ := waitWhileFalse_spec _ rest h
      rw [List.length_drop] at hklen
      refine ⟨m, m + 1 + k', by omega, by omega, hxm, hm, ?_, ?_, ?_⟩
      · intro x hx1 hx2
        have hy : x - (m + 1) < k' := by omega
        have := hxk (x - (m + 1)) hy
        rw [List.getElem?_drop] at this
        rwa [show m + 1 + (x - (m + 1)) = x by omega] at this
      · have := hk
        rwa [List.getElem?_drop] at this
      · have hadd : m + 1 + (k' + 1) = m + 1 + k' + 1 := by omega
        rw [hrest, List.drop_drop, hadd]

theorem c2_witness :
    ∃ m k, m < k ∧ k < ([true, false, true] : List Bool).length ∧
      (∀ x, x < m → ([true, false, true] : List Bool)[x]? = some true) ∧
      ([true, false, true] : List Bool)[m]? = some false ∧
      (∀ x, m < x → x < k → ([true, false, true] : List Bool)[x]? = some false) ∧
      ([true, false, true] : List Bool)[k]? = some true ∧
      ([] : List Bool) = ([true, false, true] : List Bool).drop (k + 1) :=
  c2_wait_low_then_high.2 [true, false, true] [] rfl

/-! ## C9: line-reader safety -/

theorem getstrAux_spec :
    ∀ (input : List Char) (nbuf i : Nat) (ws : List (Nat × Char)),
      1 ≤ nbuf → '\n' ∈ input → i ≤ nbuf - 1 → (∀ p ∈ ws, p.1 ≤ nbuf - 1) →
      ∃ R ws', getstrAux nbuf input i ws = some (R, ws') ∧ R ≤ nbuf - 1 ∧
        ws'.getLast? = some (R, '\u0000') ∧ ∀ p ∈ ws', p.1 ≤ nbuf - 1 := by
  intro input
  induction input with
  | nil => intro nbuf i ws h1 hmem; exact absurd hmem (by simp)
  | cons c rest ih =>
    intro nbuf i ws h1 hmem hi hws
    by_cases hc : c = '\n'
    · subst hc
      refine ⟨i, ws ++ [(i, '\u0000')], by rw [getstrAux, if_pos rfl], hi,
        List.getLast?_concat ws, ?_⟩
      intro p hp
      rcases List.mem_append.mp hp with h | h
      · exact hws p h
      · rw [List.mem_singleton] at h
        subst h
        exact hi
    · have hmem' : '\n' ∈ rest := by
        rcases List.mem_cons.mp hmem with h | h
        · exact absurd h.symm hc
        · exact h
      by_cases hb : c = '\u0008'
      · rw [getstrAux, if_neg hc, if_pos hb]
        exact ih nbuf (if 0 < i then i - 1 else i) ws h1 hmem' (by split <;> omega) hws
      · by_cases hr : c = '\r'
        · rw [getstrAux, if_neg hc, if_neg hb, if_pos hr]
          exact ih nbuf i ws h1 hmem' hi hws
        · by_cases hlt : i < nbuf - 1
          · rw [getstrAux, if_neg hc, if_neg hb, if_neg hr, if_pos hlt]
            refine ih nbuf (i + 1) (ws ++ [(i, c)]) h1 hmem' (by omega) ?_
            intro p hp
            rcases List.mem_append.mp hp with h | h
            · exact hws p h
            · rw [List.mem_singleton] at h
              subst h
              omega
          · rw [getstrAux, if_neg hc, if_neg hb, if_neg hr, if_neg hlt]
            exact ih nbuf i ws h1 hmem' hi hws

/-- C9: whenever the input stream contains a newline and the capacity is
at least 1, `getstr` terminates with a count `R ≤ nbuf - 1`, its final
store is the NUL terminator at index `R`, and every store it performed
hit an index `≤ nbuf - 1` (all writes stay inside `buf[0..nbuf-1]`). -/
theorem c9_getstr_safe (input : List Char) (nbuf : Nat)
    (h1 : 1 ≤ nbuf) (hmem : '\n' ∈ input) :
    ∃ R ws, getstr input nbuf = some (R, ws) ∧ R ≤ nbuf - 1 ∧
      ws.getLast? = some (R, '\u0000') ∧ ∀ p ∈ ws, p.1 ≤ nbuf - 1 :=
  getstrAux_spec input nbuf 0 [] h1 hmem (by omega) (by simp)

theorem c9_witness :
    ∃ R ws, getstr "ab\n".data 80 = some (R, ws) ∧ R ≤ 80 - 1 ∧
      ws.getLast? = some (R, '\u0000') ∧ ∀ p ∈ ws, p.1 ≤ 80 - 1 :=
  c9_getstr_safe "ab\n".data 80 (by norm_num) (by decide)

/-! ## C1: the packed (`q`) report -/

theorem b64get_index : ∀ a, a < 64 → base64_alphabet.indexOf (b64get a) = a := by decide

theorem b64get_mem : ∀ a, a < 64 → b64get a ∈ base64_alphabet := by decide

theorem land_4095 (v : Nat) : v &&& 4095 = v % 4096 := by
  have h := Nat.and_pow_two_sub_one_eq_mod v 12
  norm_num at h
  exact h

theorem land_63 (v : Nat) : v &&& 63 = v % 64 := by
  have h := Nat.and_pow_two_sub_one_eq_mod v 6
  norm_num at h
  exact h

theorem shift6 (v : Nat) : v >>> 6 = v / 64 := by
  rw [Nat.shiftRight_eq_div_pow]

theorem qPair_eq (v : Nat) : qPair v = [b64get (v % 4096 / 64), b64get (v % 64)] := by
  unfold qPair
  rw [land_4095, land_63, shift6]

theorem qLine_length (s : Nat → Nat) (j : Nat) : (qLine s j).length = 40 := by
  rw [qLine, List.length_flatMap]
  have h : (List.range 20).map (List.length ∘ fun k => qPair (s (j * 20 + k)))
      = List.replicate 20 2 := by
    rw [List.eq_replicate_iff]
    constructor
    · simp
    · intro b hb
      rw [List.mem_map] at hb
      obtain ⟨k, _, rfl⟩ := hb
      rfl
  rw [h, List.sum_replicate]
  rfl

theorem qLine_chars (s : Nat → Nat) (j : Nat) :
    ∀ c ∈ qLine s j, c ∈ base64_alphabet := by
  intro c hc
  rw [qLine, List.mem_flatMap] at hc
  obtain ⟨k, _, hck⟩ := hc
  rw [qPair_eq] at hck
  rcases List.mem_cons.mp hck with rfl | hck'
  · exact b64get_mem _ (by omega)
  · rw [List.mem_singleton] at hck'
    subst hck'
    exact b64get_mem _ (by omega)

theorem range_mul_flatMap (a b : Nat) :
    (List.range a).flatMap (fun j => (List.range b).map (fun k => j * b + k)) =
      List.range (a * b) := by
  induction a with
  | zero => simp
  | succ n ih =>
    rw [List.range_succ, List.flatMap_append, ih, Nat.succ_mul, List.range_add]
    simp

theorem qReport_flatten (s : Nat → Nat) :
    (qReport s).flatten = (List.range N_SAMPLES).flatMap (fun i => qPair (s i)) := by
  have h0 : (qReport s).flatten = (List.range (N_SAMPLES / 20)).flatMap (qLine s) := by
    rw [qReport, List.flatten_eq_flatMap]
    rw [List.flatMap_map]
    rfl
  rw [h0]
  have h1 : ∀ j, qLine s j =
      ((List.range 20).map (fun k => j * 20 + k)).flatMap (fun i => qPair (s i)) := by
    intro j
    rw [qLine, List.flatMap_map]
  calc (List.range (N_SAMPLES / 20)).flatMap (qLine s)
      = (List.range (N_SAMPLES / 20)).flatMap
          (fun j => ((List.range 20).map (fun k => j * 20 + k)).flatMap
            (fun i => qPair (s i))) :=
        List.flatMap_congr (fun j _ => h1 j)
    _ = ((List.range (N_SAMPLES / 20)).flatMap
          (fun j => (List.range 20).map (fun k => j * 20 + k))).flatMap
            (fun i => qPair (s i)) := (List.flatMap_assoc _ _ _).symm
    _ = (List.range (N_SAMPLES / 20 * 20)).flatMap (fun i => qPair (s i)) := by
        rw [range_mul_flatMap]
    _ = (List.range N_SAMPLES).flatMap (fun i => qPair (s i)) := rfl

theorem decodePairs_qPair :
    ∀ (vals : List Nat),
      decodePairs (vals.flatMap (fun v => qPair v)) = vals.map (fun v => v % 4096) := by
  intro vals
  induction vals with
  | nil => rfl
  | cons v tl ih =>
    rw [List.flatMap_cons, qPair_eq]
    show decodePairs (b64get (v % 4096 / 64) :: b64get (v % 64) :: tl.flatMap qPair)
      = v % 4096 :: tl.map (fun v => v % 4096)
    rw [decodePairs, ih]
    congr 1
    rw [b64get_index _ (by omega), b64get_index _ (by omega)]
    omega

/-- C1: for any buffer of 16-bit samples, the packed `q` report has
exactly `N_SAMPLES / 20` lines of exactly 40 characters each, every
character drawn from the base64 alphabet; each sample is masked to 12
bits and rendered as the alphabet characters of bits 6–11 and bits
0–5, and decoding the character pairs in order recovers
`sample mod 4096` for every sample in buffer order. -/
theorem c1_q_report (s : Nat → Nat) (h16 : ∀ i, s i < 65536) :
    (qReport s).length = N_SAMPLES / 20 ∧
    (∀ l ∈ qReport s, l.length = 40) ∧
    (∀ l ∈ qReport s, ∀ c ∈ l, c ∈ base64_alphabet) ∧
    (qReport s).flatten = (List.range N_SAMPLES).flatMap
      (fun i => [b64get (s i % 4096 / 64), b64get (s i % 64)]) ∧
    decodePairs (qReport s).flatten =
      (List.range N_SAMPLES).map (fun i => s i % 4096) := by
  refine ⟨by simp [qReport], ?_, ?_, ?_, ?_⟩
  · intro l hl
    rw [qReport, List.mem_map] at hl
    obtain ⟨j, _, rfl⟩ := hl
    exact qLine_length s j
  · intro l hl
    rw [qReport, List.mem_map] at hl
    obtain ⟨j, _, rfl⟩ := hl
    exact qLine_chars s j
  · rw [qReport_flatten]
    exact List.flatMap_congr (fun i _ => qPair_eq (s i))
  · rw [qReport_flatten]
    have h : (List.range N_SAMPLES).flatMap (fun i => qPair (s i))
        = ((List.range N_SAMPLES).map s).flatMap qPair := by
      rw [List.flatMap_map]
    rw [h, decodePairs_qPair, List.map_map]
    rfl

theorem c1_witness :
    (qReport (fun _ => 0)).length = N_SAMPLES / 20 ∧
    decodePairs (qReport (fun _ => 0)).flatten =
      (List.range N_SAMPLES).map (fun i => (fun _ => 0) i % 4096) :=
  ⟨(c1_q_report (fun _ => 0) (fun i => by norm_num)).1,
   (c1_q_report (fun _ => 0) (fun i => by norm_num)).2.2.2.2⟩

/-! ## C4: the statistics of the `b` command -/

theorem foldl_add_map (f : Nat → ℚ) :
    ∀ (l : List Nat) (a : ℚ),
      l.foldl (fun acc j => acc + f j) a = a + (l.map f).sum := by
  intro l
  induction l with
  | nil => intro a; simp
  | cons x xs ih => intro a; simp [ih, add_assoc]

theorem sum_map_range_const (n : Nat) (c : ℚ) :
    ((List.range n).map (fun (_ : Nat) => c)).sum = n * c := by
  induction n with
  | zero => simp
  | succ m ih =>
    rw [List.range_succ, List.map_append, List.sum_append, ih]
    push_cast
    simp
    ring

theorem sum_map_range_cast (n : Nat) :
    ((List.range n).map (fun (j : Nat) => (j : ℚ))).sum = n * ((n : ℚ) - 1) / 2 := by
  induction n with
  | zero => simp
  | succ m ih =>
    rw [List.range_succ, List.map_append, List.sum_append, ih]
    push_cast
    simp
    ring

theorem mean_of_const (c : Nat) : mean_of (fun _ => c) = (c : ℚ) := by
  rw [mean_of, foldl_add_map, sum_map_range_const]
  rw [show (N_SAMPLES : ℚ) = 3800 from by norm_num [N_SAMPLES]]
  norm_num

theorem mean_of_id : mean_of (fun i => i) = ((N_SAMPLES : ℚ) - 1) / 2 := by
  rw [mean_of, foldl_add_map]
  rw [show (List.map (fun (j : Nat) => (j : ℚ)) (List.range N_SAMPLES)).sum
      = (N_SAMPLES : ℚ) * ((N_SAMPLES : ℚ) - 1) / 2 from sum_map_range_cast N_SAMPLES]
  rw [show (N_SAMPLES : ℚ) = 3800 from by norm_num [N_SAMPLES]]
  norm_num

theorem variance_sum_self_mean_const (c : Nat) :
    variance_sum (fun _ => c) (mean_of (fun _ => c)) = 0 := by
  rw [variance_sum, mean_of_const, foldl_add_map]
  have h : List.map (fun (j : Nat) => ((c : ℚ) - c) * ((c : ℚ) - c))
      (List.range N_SAMPLES)
      = List.map (fun (_ : Nat) => (0 : ℚ)) (List.range N_SAMPLES) :=
    List.map_congr_left (fun j _ => by ring)
  rw [h, sum_map_range_const]
  ring

theorem stddev_sq_const (c : Nat) : stddev_sq (fun _ => c) = 0 := by
  rw [stddev_sq, variance_sum_self_mean_const]
  simp

/-- C4: the statistics computed by `b` (mean in a first full pass, then
`Σ(sample-mean)²` in a second pass, with Bessel division by `N-1`
under the square root): on a constant buffer `c` the mean is `c` and
the standard deviation — any nonnegative real whose square is the
`sqrt` argument — is 0; on the buffer `[0, 1, ..., N-1]` the mean is
`(N-1)/2`. -/
theorem c4_stats (c : Nat) (sd : ℝ) (hnn : 0 ≤ sd)
    (hsq : sd ^ 2 = ((stddev_sq (fun _ => c) : ℚ) : ℝ)) :
    mean_of (fun _ => c) = (c : ℚ) ∧ sd = 0 ∧
      mean_of (fun i => i) = ((N_SAMPLES : ℚ) - 1) / 2 := by
  refine ⟨mean_of_const c, ?_, mean_of_id⟩
  have h0 : sd ^ 2 = 0 := by
    rw [hsq, stddev_sq_const]
    norm_num
  exact (pow_eq_zero_iff (by norm_num)).mp h0

theorem c4_witness :
    mean_of (fun _ => 5) = (5 : ℚ) ∧ (0 : ℝ) = 0 ∧
      mean_of (fun i => i) = ((N_SAMPLES : ℚ) - 1) / 2 :=
  c4_stats 5 0 le_rfl (by rw [stddev_sq_const]; norm_num)
